import Mathlib

/-!
Verification of the job-scheduler simulator (`src/Project.cpp`).

The C++ program is embedded shallowly:

* C++ `int` fields are modelled as unbounded `Int`; the one place where
  32-bit overflow is relevant to the stated properties — the product
  computed by the `SmallestJobFirst` comparator — wraps explicitly
  through `toInt32`.
* `double` utilization percentages are modelled as exact rationals `ℚ`
  (all concrete values appearing in the properties, such as `50.00` and
  `0`, are exactly representable in binary floating point and the
  corresponding computations are exact).
* `std::priority_queue` with comparator `comp` pops a maximal element in
  heap order; with `comp(a,b) = key a > key b` that is an element of
  minimal `key`.  The tie order among equal keys is unspecified in C++;
  the model deterministically pops the first listed minimum.
* Stateful member functions become functions from states to states.
-/

/-- `struct Job` from `src/Project.cpp`. -/
structure Job where
  id : Int
  arrivalTime : Int
  coresRequired : Int
  memoryRequired : Int
  execTime : Int
  completed : Bool
  deriving DecidableEq, Repr

/-- The `Job` constructor: `completed` is initialised to `false`. -/
def mkJob (i arrival cores memory exec : Int) : Job :=
  { id := i, arrivalTime := arrival, coresRequired := cores,
    memoryRequired := memory, execTime := exec, completed := false }

/-- `struct WorkerNode` from `src/Project.cpp`. -/
structure WorkerNode where
  id : Int
  totalCores : Int
  totalMemory : Int
  availableCores : Int
  availableMemory : Int
  deriving DecidableEq, Repr

/-- `WorkerNode{i}`: totals default to 24 cores / 64 GB and the available
counters are initialised to the totals. -/
def mkWorkerNode (i : Int) : WorkerNode :=
  { id := i, totalCores := 24, totalMemory := 64,
    availableCores := 24, availableMemory := 64 }

/-- `WorkerNode::allocateJob`: checks both resource dimensions jointly,
then decrements both counters, else leaves the node unchanged. -/
def WorkerNode.allocateJob (n : WorkerNode) (j : Job) : Bool × WorkerNode :=
  if j.coresRequired ≤ n.availableCores ∧ j.memoryRequired ≤ n.availableMemory then
    (true, { n with availableCores := n.availableCores - j.coresRequired,
                    availableMemory := n.availableMemory - j.memoryRequired })
  else
    (false, n)

/-- `WorkerNode::freeResources`: unconditionally increments both counters,
with no bounds check against the totals. -/
def WorkerNode.freeResources (n : WorkerNode) (j : Job) : WorkerNode :=
  { n with availableCores := n.availableCores + j.coresRequired,
           availableMemory := n.availableMemory + j.memoryRequired }

/-- `WorkerNode::getCpuUtilization`: `100 * (1 - availableCores / totalCores)`. -/
def WorkerNode.getCpuUtilization (n : WorkerNode) : ℚ :=
  100 * (1 - (n.availableCores : ℚ) / (n.totalCores : ℚ))

/-- `WorkerNode::getMemoryUtilization`: `100 * (1 - availableMemory / totalMemory)`. -/
def WorkerNode.getMemoryUtilization (n : WorkerNode) : ℚ :=
  100 * (1 - (n.availableMemory : ℚ) / (n.totalMemory : ℚ))

/-- The documented per-node resource invariant:
`0 ≤ availableCores ≤ totalCores` and `0 ≤ availableMemory ≤ totalMemory`. -/
def nodeInvariant (n : WorkerNode) : Prop :=
  0 ≤ n.availableCores ∧ n.availableCores ≤ n.totalCores ∧
  0 ≤ n.availableMemory ∧ n.availableMemory ≤ n.totalMemory

instance (n : WorkerNode) : Decidable (nodeInvariant n) := by
  unfold nodeInvariant; infer_instance

/-- Reduction of an unbounded integer to the 32-bit signed range
`[-2^31, 2^31)`: the effect of two's-complement wrap-around in C++ `int`
arithmetic. -/
def toInt32 (x : Int) : Int := (x + 2 ^ 31) % 2 ^ 32 - 2 ^ 31

/-- The ordering key used by the `SmallestJobFirst` comparator:
`execTime * coresRequired * memoryRequired` evaluated in C++ `int`
arithmetic (each multiplication wraps to 32 bits). -/
def smallestKey (j : Job) : Int :=
  toInt32 (toInt32 (j.execTime * j.coresRequired) * j.memoryRequired)

/-- The exact mathematical product `execTime * coresRequired * memoryRequired`. -/
def trueProduct (j : Job) : Int :=
  j.execTime * j.coresRequired * j.memoryRequired

/-- `struct SmallestJobFirst`: `j1` sorts after `j2` when its (wrapped)
product is larger. -/
def SmallestJobFirst (j1 j2 : Job) : Bool :=
  decide (smallestKey j2 < smallestKey j1)

/-- `struct ShortestDurationFirst`: `j1` sorts after `j2` when its
`execTime` is larger. -/
def ShortestDurationFirst (j1 j2 : Job) : Bool :=
  decide (j2.execTime < j1.execTime)

/-- `top()` + `pop()` of a `std::priority_queue` whose comparator orders by
a key `k` descending (as both comparators above do): returns an element of
minimal key together with the remaining contents, or `none` when empty.
Tie order among equal keys is unspecified in C++; the model picks the
first listed minimum. -/
def popMinBy (k : Job → Int) : List Job → Option (Job × List Job)
  | [] => none
  | j :: js =>
    match popMinBy k js with
    | none => some (j, js)
    | some (m, rest) => if k j ≤ k m then some (j, js) else some (m, j :: rest)

theorem popMinBy_none_iff (k : Job → Int) (l : List Job) :
    popMinBy k l = none ↔ l = [] := by
  cases l with
  | nil => simp [popMinBy]
  | cons j js =>
    simp only [popMinBy]
    cases h : popMinBy k js with
    | none => simp
    | some p => cases p with | mk m rest => by_cases hk : k j ≤ k m <;> simp [hk]

theorem popMinBy_length {k : Job → Int} {l rest : List Job} {m : Job}
    (h : popMinBy k l = some (m, rest)) : l.length = rest.length + 1 := by
  induction l generalizing m rest with
  | nil => simp [popMinBy] at h
  | cons j js ih =>
    simp only [popMinBy] at h
    cases h2 : popMinBy k js with
    | none =>
      rw [h2] at h
      cases h
      simp
    | some p =>
      cases p with
      | mk m2 rest2 =>
        rw [h2] at h
        by_cases hk : k j ≤ k m2 <;> simp [hk] at h
        · cases h.1; cases h.2; simp
        · cases h.1; cases h.2
          simp [ih h2]

theorem popMinBy_perm {k : Job → Int} {l rest : List Job} {m : Job}
    (h : popMinBy k l = some (m, rest)) : l.Perm (m :: rest) := by
  induction l generalizing m rest with
  | nil => simp [popMinBy] at h
  | cons j js ih =>
    simp only [popMinBy] at h
    cases h2 : popMinBy k js with
    | none =>
      rw [h2] at h
      cases h
      exact List.Perm.refl _
    | some p =>
      cases p with
      | mk m2 rest2 =>
        rw [h2] at h
        by_cases hk : k j ≤ k m2 <;> simp [hk] at h
        · cases h.1; cases h.2; exact List.Perm.refl _
        · cases h.1; cases h.2
          exact ((ih h2).cons j).trans (List.Perm.swap _ _ _)

theorem popMinBy_min {k : Job → Int} {l rest : List Job} {m : Job}
    (h : popMinBy k l = some (m, rest)) : ∀ x ∈ l, k m ≤ k x := by
  induction l generalizing m rest with
  | nil => simp [popMinBy] at h
  | cons j js ih =>
    simp only [popMinBy] at h
    cases h2 : popMinBy k js with
    | none =>
      rw [h2] at h
      cases h
      intro x hx
      rcases List.mem_cons.mp hx with hx | hx
      · exact le_of_eq (congrArg k hx.symm)
      · exact absurd ((popMinBy_none_iff k js).mp h2 ▸ hx) (List.not_mem_nil x)
    | some p =>
      cases p with
      | mk m2 rest2 =>
        rw [h2] at h
        by_cases hk : k j ≤ k m2 <;> simp [hk] at h
        · cases h.1; cases h.2
          intro x hx
          rcases List.mem_cons.mp hx with hx | hx
          · exact le_of_eq (congrArg k hx.symm)
          · exact le_trans hk (ih h2 x hx)
        · cases h.1; cases h.2
          intro x hx
          rcases List.mem_cons.mp hx with hx | hx
          · exact hx ▸ le_of_lt (lt_of_not_le hk)
          · exact ih h2 x hx

/-- Recursion core of `heapDrainOrder`; each pop removes one element, so
the list's length bounds the number of pops and serves as fuel, keeping
the definition structurally recursive (hence kernel-computable). -/
def heapDrainAux (k : Job → Int) : Nat → List Job → List Job
  | 0, _ => []
  | fuel + 1, l =>
    match popMinBy k l with
    | none => []
    | some (m, rest) => m :: heapDrainAux k fuel rest

/-- The order in which repeatedly calling `top()`/`pop()` drains a
priority queue with key `k`. -/
def heapDrainOrder (k : Job → Int) (l : List Job) : List Job :=
  heapDrainAux k l.length l

theorem heapDrainOrder_none {k : Job → Int} {l : List Job}
    (h : popMinBy k l = none) : heapDrainOrder k l = [] := by
  have : l = [] := (popMinBy_none_iff k l).mp h
  subst this
  rfl

theorem heapDrainOrder_some {k : Job → Int} {l rest : List Job} {m : Job}
    (h : popMinBy k l = some (m, rest)) :
    heapDrainOrder k l = m :: heapDrainOrder k rest := by
  unfold heapDrainOrder
  rw [popMinBy_length h]
  simp [heapDrainAux, h]

/-- `Scheduler::allocateJobToNode`: scan the nodes in order, allocating on
the first that accepts; the job is passed by reference in the C++ source
and never written through, which the model records by returning it. -/
def allocateJobToNode : List WorkerNode → Job → Bool × List WorkerNode × Job
  | [], job => (false, [], job)
  | n :: ns, job =>
    match n.allocateJob job with
    | (true, n2) => (true, n2 :: ns, job)
    | (false, _) =>
      match allocateJobToNode ns job with
      | (ok, ns2, j2) => (ok, n :: ns2, j2)

/-- The loop body of `Scheduler::scheduleJobsFCFS`, on the queue contents,
the node pool and the pending list: pop the front job, try to place it,
append it to the pending list on failure. -/
def drainFCFS : List Job → List WorkerNode → List Job → List WorkerNode × List Job
  | [], nodes, pending => (nodes, pending)
  | job :: rest, nodes, pending =>
    drainFCFS rest (allocateJobToNode nodes job).2.1
      (if (allocateJobToNode nodes job).1 then pending else pending ++ [job])

/-- Recursion core of `drainHeap`; as in `heapDrainAux` the queue length
bounds the number of loop iterations and serves as structural fuel. -/
def drainHeapAux (k : Job → Int) :
    Nat → List Job → List WorkerNode → List Job → List WorkerNode × List Job
  | 0, _, nodes, pending => (nodes, pending)
  | fuel + 1, q, nodes, pending =>
    match popMinBy k q with
    | none => (nodes, pending)
    | some (job, rest) =>
      drainHeapAux k fuel rest (allocateJobToNode nodes job).2.1
        (if (allocateJobToNode nodes job).1 then pending else pending ++ [job])

/-- The loop body of `Scheduler::scheduleJobsSmallest` /
`scheduleJobsShortest`, parameterised by the heap's key: pop the top job
(minimal key), try to place it, append it to the pending list on failure. -/
def drainHeap (k : Job → Int) (q : List Job) (nodes : List WorkerNode)
    (pending : List Job) : List WorkerNode × List Job :=
  drainHeapAux k q.length q nodes pending

theorem drainHeap_none {k : Job → Int} {q : List Job} (nodes : List WorkerNode)
    (pending : List Job) (h : popMinBy k q = none) :
    drainHeap k q nodes pending = (nodes, pending) := by
  have : q = [] := (popMinBy_none_iff k q).mp h
  subst this
  rfl

theorem drainHeap_some {k : Job → Int} {q rest : List Job} {job : Job}
    (nodes : List WorkerNode) (pending : List Job)
    (h : popMinBy k q = some (job, rest)) :
    drainHeap k q nodes pending =
      drainHeap k rest (allocateJobToNode nodes job).2.1
        (if (allocateJobToNode nodes job).1 then pending else pending ++ [job]) := by
  unfold drainHeap
  rw [popMinBy_length h]
  simp [drainHeapAux, h]

/-- `class Scheduler`: the node pool, the three policy queues (priority
queues modelled by their multiset of contents) and the pending list. -/
structure Scheduler where
  nodes : List WorkerNode
  jobQueueFCFS : List Job
  jobQueueSmallest : List Job
  jobQueueShortest : List Job
  pendingJobs : List Job
  deriving DecidableEq, Repr

/-- `Scheduler::Scheduler(numNodes)`: nodes 0, 1, …, numNodes-1, empty
queues and pending list. -/
def mkScheduler (numNodes : Nat) : Scheduler :=
  { nodes := (List.range numNodes).map fun i => mkWorkerNode i,
    jobQueueFCFS := [], jobQueueSmallest := [], jobQueueShortest := [],
    pendingJobs := [] }

/-- `Scheduler::scheduleJobsFCFS`: drain the FCFS queue to empty. -/
def Scheduler.scheduleJobsFCFS (s : Scheduler) : Scheduler :=
  { s with nodes := (drainFCFS s.jobQueueFCFS s.nodes s.pendingJobs).1,
           pendingJobs := (drainFCFS s.jobQueueFCFS s.nodes s.pendingJobs).2,
           jobQueueFCFS := [] }

/-- `Scheduler::scheduleJobsSmallest`: drain the weighted-smallest heap to
empty. -/
def Scheduler.scheduleJobsSmallest (s : Scheduler) : Scheduler :=
  { s with nodes := (drainHeap smallestKey s.jobQueueSmallest s.nodes s.pendingJobs).1,
           pendingJobs := (drainHeap smallestKey s.jobQueueSmallest s.nodes s.pendingJobs).2,
           jobQueueSmallest := [] }

/-- `Scheduler::scheduleJobsShortest`: drain the shortest-duration heap to
empty. -/
def Scheduler.scheduleJobsShortest (s : Scheduler) : Scheduler :=
  { s with nodes := (drainHeap Job.execTime s.jobQueueShortest s.nodes s.pendingJobs).1,
           pendingJobs := (drainHeap Job.execTime s.jobQueueShortest s.nodes s.pendingJobs).2,
           jobQueueShortest := [] }

/-- The three scheduling policies of `main`. -/
inductive Policy
  | fcfs
  | smallest
  | shortest
  deriving DecidableEq, Repr

/-- Invoke one policy's drain method. -/
def runPolicy : Policy → Scheduler → Scheduler
  | Policy.fcfs, s => s.scheduleJobsFCFS
  | Policy.smallest, s => s.scheduleJobsSmallest
  | Policy.shortest, s => s.scheduleJobsShortest

/-- Invoke a sequence of drain calls, left to right. -/
def runDrains (order : List Policy) (s : Scheduler) : Scheduler :=
  order.foldl (fun t p => runPolicy p t) s

/-- The contents of one policy's queue. -/
def queueOf : Policy → Scheduler → List Job
  | Policy.fcfs, s => s.jobQueueFCFS
  | Policy.smallest, s => s.jobQueueSmallest
  | Policy.shortest, s => s.jobQueueShortest

/-! ### Supporting lemmas -/

theorem allocateJob_fail_eq {n : WorkerNode} {j : Job}
    (h : (n.allocateJob j).1 = false) : (n.allocateJob j).2 = n := by
  unfold WorkerNode.allocateJob at h ⊢
  split at h
  · simp at h
  · next hcond => rw [if_neg hcond]

theorem allocateJobToNode_job (ns : List WorkerNode) (j : Job) :
    (allocateJobToNode ns j).2.2 = j := by
  induction ns with
  | nil => rfl
  | cons n ns ih =>
    simp only [allocateJobToNode]
    split
    · rfl
    · exact ih

/-- Jobs whose resource demands are nonnegative (the spec's jobs all have
positive demands). -/
def jobsNonneg (l : List Job) : Prop :=
  ∀ j ∈ l, 0 ≤ j.coresRequired ∧ 0 ≤ j.memoryRequired

instance (l : List Job) : Decidable (jobsNonneg l) := by
  unfold jobsNonneg; infer_instance

/-- Every node of a pool satisfying the resource invariant. -/
def invariantAll (ns : List WorkerNode) : Prop := ∀ n ∈ ns, nodeInvariant n

instance (ns : List WorkerNode) : Decidable (invariantAll ns) := by
  unfold invariantAll; infer_instance

/-- A node's fixed capacities (never changed by any operation). -/
def nodeTotals (n : WorkerNode) : Int × Int := (n.totalCores, n.totalMemory)

theorem allocateJob_preserves_invariant {n : WorkerNode} {j : Job}
    (hinv : nodeInvariant n) (hc : 0 ≤ j.coresRequired) (hm : 0 ≤ j.memoryRequired) :
    nodeInvariant (n.allocateJob j).2 := by
  obtain ⟨h1, h2, h3, h4⟩ := hinv
  unfold WorkerNode.allocateJob
  by_cases h : j.coresRequired ≤ n.availableCores ∧ j.memoryRequired ≤ n.availableMemory
  · rw [if_pos h]
    show 0 ≤ n.availableCores - j.coresRequired ∧
      n.availableCores - j.coresRequired ≤ n.totalCores ∧
      0 ≤ n.availableMemory - j.memoryRequired ∧
      n.availableMemory - j.memoryRequired ≤ n.totalMemory
    omega
  · rw [if_neg h]
    exact ⟨h1, h2, h3, h4⟩

theorem allocateJob_totals (n : WorkerNode) (j : Job) :
    nodeTotals (n.allocateJob j).2 = nodeTotals n := by
  unfold WorkerNode.allocateJob
  split <;> rfl

theorem allocateJobToNode_totals (ns : List WorkerNode) (j : Job) :
    (allocateJobToNode ns j).2.1.map nodeTotals = ns.map nodeTotals := by
  induction ns with
  | nil => rfl
  | cons n ns ih =>
    simp only [allocateJobToNode]
    split
    · next n2 heq =>
      have h2 : nodeTotals n2 = nodeTotals n := by
        have h0 := allocateJob_totals n j
        rw [heq] at h0
        exact h0
      simp [List.map_cons, h2]
    · simp [List.map_cons, ih]

theorem allocateJobToNode_invariant {ns : List WorkerNode} {j : Job}
    (hinv : invariantAll ns) (hc : 0 ≤ j.coresRequired) (hm : 0 ≤ j.memoryRequired) :
    invariantAll (allocateJobToNode ns j).2.1 := by
  induction ns with
  | nil => exact hinv
  | cons n ns ih =>
    simp only [allocateJobToNode]
    split
    · next n2 heq =>
      intro x hx
      rcases List.mem_cons.mp hx with hx | hx
      · subst hx
        have h0 := allocateJob_preserves_invariant
          (hinv n (List.mem_cons_self n ns)) hc hm
        rw [heq] at h0
        exact h0
      · exact hinv x (List.mem_cons_of_mem n hx)
    · intro x hx
      rcases List.mem_cons.mp hx with hx | hx
      · subst hx
        exact hinv x (List.mem_cons_self x ns)
      · exact ih (fun y hy => hinv y (List.mem_cons_of_mem n hy)) x hx

theorem drainFCFS_pending (q : List Job) (nodes : List WorkerNode) (pending : List Job) :
    drainFCFS q nodes pending =
      ((drainFCFS q nodes []).1, pending ++ (drainFCFS q nodes []).2) := by
  induction q generalizing nodes pending with
  | nil => simp [drainFCFS]
  | cons job rest ih =>
    simp only [drainFCFS]
    cases hok : (allocateJobToNode nodes job).1 with
    | true =>
      simp only [hok, if_true]
      exact ih _ pending
    | false =>
      simp only [hok, Bool.false_eq_true, if_false]
      rw [ih _ (pending ++ [job]), ih _ ([] ++ [job])]
      simp

theorem drainFCFS_sublist (q : List Job) (nodes : List WorkerNode) :
    (drainFCFS q nodes []).2.Sublist q := by
  induction q generalizing nodes with
  | nil => simp [drainFCFS]
  | cons job rest ih =>
    simp only [drainFCFS]
    cases hok : (allocateJobToNode nodes job).1 with
    | true =>
      simp only [hok, if_true]
      exact (ih _).cons job
    | false =>
      simp only [hok, Bool.false_eq_true, if_false]
      rw [drainFCFS_pending]
      simp only [List.nil_append, List.singleton_append]
      exact (ih _).cons₂ job

theorem drainFCFS_invariant {q : List Job} {nodes : List WorkerNode} {pending : List Job}
    (hinv : invariantAll nodes) (hq : jobsNonneg q) :
    invariantAll (drainFCFS q nodes pending).1 := by
  induction q generalizing nodes pending with
  | nil => exact hinv
  | cons job rest ih =>
    simp only [drainFCFS]
    exact ih
      (allocateJobToNode_invariant hinv
        (hq job (List.mem_cons_self job rest)).1 (hq job (List.mem_cons_self job rest)).2)
      (fun y hy => hq y (List.mem_cons_of_mem job hy))

theorem drainFCFS_totals (q : List Job) (nodes : List WorkerNode) (pending : List Job) :
    (drainFCFS q nodes pending).1.map nodeTotals = nodes.map nodeTotals := by
  induction q generalizing nodes pending with
  | nil => rfl
  | cons job rest ih =>
    simp only [drainFCFS]
    rw [ih, allocateJobToNode_totals]

theorem heapDrainOrder_perm_aux (k : Job → Int) (n : Nat) :
    ∀ l : List Job, l.length ≤ n → (heapDrainOrder k l).Perm l := by
  induction n with
  | zero =>
    intro l hl
    have : l = [] := List.length_eq_zero.mp (Nat.le_zero.mp hl)
    subst this
    exact List.Perm.refl _
  | succ n ih =>
    intro l hl
    cases hpop : popMinBy k l with
    | none =>
      rw [heapDrainOrder_none hpop, (popMinBy_none_iff k l).mp hpop]
    | some p =>
      obtain ⟨m, rest⟩ := p
      rw [heapDrainOrder_some hpop]
      have hlen := popMinBy_length hpop
      have hr := ih rest (by omega)
      exact (hr.cons m).trans (popMinBy_perm hpop).symm

theorem heapDrainOrder_perm (k : Job → Int) (l : List Job) :
    (heapDrainOrder k l).Perm l :=
  heapDrainOrder_perm_aux k l.length l le_rfl

theorem heapDrainOrder_pairwise_aux (k : Job → Int) (n : Nat) :
    ∀ l : List Job, l.length ≤ n →
      (heapDrainOrder k l).Pairwise fun a b => k a ≤ k b := by
  induction n with
  | zero =>
    intro l hl
    have : l = [] := List.length_eq_zero.mp (Nat.le_zero.mp hl)
    subst this
    exact List.Pairwise.nil
  | succ n ih =>
    intro l hl
    cases hpop : popMinBy k l with
    | none =>
      rw [heapDrainOrder_none hpop]
      exact List.Pairwise.nil
    | some p =>
      obtain ⟨m, rest⟩ := p
      rw [heapDrainOrder_some hpop]
      have hlen := popMinBy_length hpop
      refine List.Pairwise.cons ?_ (ih rest (by omega))
      intro b hb
      have hbr : b ∈ rest := (heapDrainOrder_perm k rest).mem_iff.mp hb
      have hbl : b ∈ l := (popMinBy_perm hpop).symm.subset (List.mem_cons_of_mem m hbr)
      exact popMinBy_min hpop b hbl

theorem heapDrainOrder_pairwise (k : Job → Int) (l : List Job) :
    (heapDrainOrder k l).Pairwise fun a b => k a ≤ k b :=
  heapDrainOrder_pairwise_aux k l.length l le_rfl

theorem drainHeap_eq_aux (k : Job → Int) (n : Nat) :
    ∀ (q : List Job) (nodes : List WorkerNode) (pending : List Job), q.length ≤ n →
      drainHeap k q nodes pending = drainFCFS (heapDrainOrder k q) nodes pending := by
  induction n with
  | zero =>
    intro q nodes pending hl
    have : q = [] := List.length_eq_zero.mp (Nat.le_zero.mp hl)
    subst this
    rfl
  | succ n ih =>
    intro q nodes pending hl
    cases hpop : popMinBy k q with
    | none =>
      rw [drainHeap_none nodes pending hpop, heapDrainOrder_none hpop]
      rfl
    | some p =>
      obtain ⟨m, rest⟩ := p
      rw [drainHeap_some nodes pending hpop, heapDrainOrder_some hpop]
      simp only [drainFCFS]
      have hlen := popMinBy_length hpop
      exact ih rest _ _ (by omega)

/-- Draining a priority queue is draining its pop order first-come
first-served: the heap's pop order does not depend on the node pool. -/
theorem drainHeap_eq_drainFCFS (k : Job → Int) (q : List Job)
    (nodes : List WorkerNode) (pending : List Job) :
    drainHeap k q nodes pending = drainFCFS (heapDrainOrder k q) nodes pending :=
  drainHeap_eq_aux k q.length q nodes pending le_rfl

/-! ### C1 -/

/-- C1: `WorkerNode::allocateJob` succeeds iff `availableCores ≥
coresRequired` and `availableMemory ≥ memoryRequired` hold jointly; on
success both counters are decremented by the job's demands, on failure the
node is left exactly unchanged (never one resource decremented without the
other). -/
theorem C1_allocateJob_joint_iff (n : WorkerNode) (j : Job) :
    ((n.allocateJob j).1 = true ↔
      j.coresRequired ≤ n.availableCores ∧ j.memoryRequired ≤ n.availableMemory) ∧
    (n.allocateJob j).2 =
      (if (n.allocateJob j).1 = true then
        { n with availableCores := n.availableCores - j.coresRequired,
                 availableMemory := n.availableMemory - j.memoryRequired }
       else n) := by
  unfold WorkerNode.allocateJob
  by_cases h : j.coresRequired ≤ n.availableCores ∧ j.memoryRequired ≤ n.availableMemory <;>
    simp [h]

/-! ### C2 -/

/-- C2 counterexample: the invariant `0 ≤ available ≤ total` is *not*
preserved by every `WorkerNode` operation.  `freeResources` has no bounds
check: freeing a (never-allocated) 1-core/1-GB job on a fresh default node
pushes `availableCores` to 25 > 24 and `availableMemory` to 65 > 64. -/
theorem C2_counterexample :
    nodeInvariant (mkWorkerNode 0) ∧
    0 < (mkJob 9 0 1 1 1).coresRequired ∧
    0 < (mkJob 9 0 1 1 1).memoryRequired ∧
    ¬ nodeInvariant ((mkWorkerNode 0).freeResources (mkJob 9 0 1 1 1)) := by
  decide

/-- C2 (amended): `allocateJob` always preserves the invariant
`0 ≤ available ≤ total` (for jobs with nonnegative demands), and
`freeResources` preserves it exactly under its documented precondition
that the freed amounts still fit under the totals (the freed job was
previously allocated and not yet freed). -/
theorem C2_invariant_preservation (n : WorkerNode) (j : Job)
    (hinv : nodeInvariant n) (hc : 0 ≤ j.coresRequired) (hm : 0 ≤ j.memoryRequired) :
    nodeInvariant ((n.allocateJob j).2) ∧
    (n.availableCores + j.coresRequired ≤ n.totalCores →
      n.availableMemory + j.memoryRequired ≤ n.totalMemory →
      nodeInvariant (n.freeResources j)) := by
  obtain ⟨h1, h2, h3, h4⟩ := hinv
  constructor
  · unfold WorkerNode.allocateJob
    by_cases h : j.coresRequired ≤ n.availableCores ∧ j.memoryRequired ≤ n.availableMemory
    · rw [if_pos h]
      show 0 ≤ n.availableCores - j.coresRequired ∧
        n.availableCores - j.coresRequired ≤ n.totalCores ∧
        0 ≤ n.availableMemory - j.memoryRequired ∧
        n.availableMemory - j.memoryRequired ≤ n.totalMemory
      omega
    · rw [if_neg h]
      exact ⟨h1, h2, h3, h4⟩
  · intro hfc hfm
    show 0 ≤ n.availableCores + j.coresRequired ∧
      n.availableCores + j.coresRequired ≤ n.totalCores ∧
      0 ≤ n.availableMemory + j.memoryRequired ∧
      n.availableMemory + j.memoryRequired ≤ n.totalMemory
    omega

/-- C2 amended-claim witness at a concrete input: a half-loaded default
node (10 cores and 10 GB free) with a 5-core/5-GB job. -/
theorem C2_invariant_preservation_witness :
    nodeInvariant ((WorkerNode.mk 0 24 64 10 10).allocateJob (mkJob 1 0 5 5 1)).2 ∧
    ((WorkerNode.mk 0 24 64 10 10).availableCores + (mkJob 1 0 5 5 1).coresRequired ≤
        (WorkerNode.mk 0 24 64 10 10).totalCores →
      (WorkerNode.mk 0 24 64 10 10).availableMemory + (mkJob 1 0 5 5 1).memoryRequired ≤
        (WorkerNode.mk 0 24 64 10 10).totalMemory →
      nodeInvariant ((WorkerNode.mk 0 24 64 10 10).freeResources (mkJob 1 0 5 5 1))) :=
  C2_invariant_preservation (WorkerNode.mk 0 24 64 10 10) (mkJob 1 0 5 5 1)
    (by decide) (by decide) (by decide)

/-! ### C3 -/

/-- C3 (code bug): no code path ever sets a job's `completed` flag.
`Scheduler::allocateJobToNode` takes the job by reference but never writes
it — the returned job always equals the offered job — so even on a
successful placement (here the sample job `Job(1,1,10,32,5)` on a fresh
default node) `completed` remains `false`, contradicting the documented
"flag set true on successful allocation". -/
theorem C3_completed_flag_never_set :
    (∀ (ns : List WorkerNode) (j : Job), (allocateJobToNode ns j).2.2 = j) ∧
    (allocateJobToNode [mkWorkerNode 0] (mkJob 1 1 10 32 5)).1 = true ∧
    (allocateJobToNode [mkWorkerNode 0] (mkJob 1 1 10 32 5)).2.2.completed = false :=
  ⟨allocateJobToNode_job, by decide, by decide⟩

/-! ### C4 -/

/-- C4: the scheduler scans the node pool in fixed ascending index order
and places the job on the first node that admits it, leaving every other
node (before and after it) unchanged and stopping the scan there. -/
theorem C4_first_fit (pre post : List WorkerNode) (n : WorkerNode) (j : Job)
    (hpre : ∀ m ∈ pre, (m.allocateJob j).1 = false)
    (hn : (n.allocateJob j).1 = true) :
    allocateJobToNode (pre ++ n :: post) j =
      (true, pre ++ (n.allocateJob j).2 :: post, j) := by
  induction pre with
  | nil =>
    simp only [List.nil_append, allocateJobToNode]
    split
    · next n2 heq => rw [heq]
    · next n2 heq => rw [heq] at hn; simp at hn
  | cons m pre ih =>
    have hm := hpre m (List.mem_cons_self m pre)
    simp only [List.cons_append, allocateJobToNode]
    split
    · next n2 heq => rw [heq] at hm; simp at hm
    · next n2 heq =>
      simp only [List.append_eq]
      rw [ih fun x hx => hpre x (List.mem_cons_of_mem m hx)]

/-- C4 witness: the spec's own first-fit test — nodes of capacity
`{10,10}` then `{100,100}` and a `{5,5}` job: the job lands on node 0 and
node 1 is untouched. -/
theorem C4_first_fit_witness :
    allocateJobToNode
        [WorkerNode.mk 0 10 10 10 10, WorkerNode.mk 1 100 100 100 100] (mkJob 7 0 5 5 1) =
      (true, [((WorkerNode.mk 0 10 10 10 10).allocateJob (mkJob 7 0 5 5 1)).2,
              WorkerNode.mk 1 100 100 100 100], mkJob 7 0 5 5 1) :=
  C4_first_fit [] [WorkerNode.mk 1 100 100 100 100] (WorkerNode.mk 0 10 10 10 10)
    (mkJob 7 0 5 5 1) (by simp) (by decide)

/-! ### C5 -/

/-- C5: every drain makes progress and never aborts.  The node states and
the newly pended jobs produced by a drain do not depend on the pending
list already accumulated (old pending jobs are never re-offered to any
node); the pending list only grows by appending; each appended job is an
unmodified member of the drained pop sequence (a sublist of it), which is
a permutation of the queue's contents; and each drain method leaves its
own policy queue empty.  All drain functions are total: allocation
failure only routes the popped job to the pending list. -/
theorem C5_drain_progress (k : Job → Int) (q : List Job) (nodes : List WorkerNode)
    (pending : List Job) (s : Scheduler) :
    (drainFCFS q nodes pending).1 = (drainFCFS q nodes []).1 ∧
    (drainFCFS q nodes pending).2 = pending ++ (drainFCFS q nodes []).2 ∧
    (drainFCFS q nodes []).2.Sublist q ∧
    (drainHeap k q nodes pending).1 = (drainHeap k q nodes []).1 ∧
    (drainHeap k q nodes pending).2 = pending ++ (drainHeap k q nodes []).2 ∧
    (drainHeap k q nodes []).2.Sublist (heapDrainOrder k q) ∧
    (heapDrainOrder k q).Perm q ∧
    s.scheduleJobsFCFS.jobQueueFCFS = [] ∧
    s.scheduleJobsSmallest.jobQueueSmallest = [] ∧
    s.scheduleJobsShortest.jobQueueShortest = [] := by
  refine ⟨?_, ?_, drainFCFS_sublist q nodes, ?_, ?_, ?_,
    heapDrainOrder_perm k q, rfl, rfl, rfl⟩
  · rw [drainFCFS_pending q nodes pending]
  · rw [drainFCFS_pending q nodes pending]
  · rw [drainHeap_eq_drainFCFS k q nodes pending, drainHeap_eq_drainFCFS k q nodes [],
      drainFCFS_pending]
  · rw [drainHeap_eq_drainFCFS k q nodes pending, drainHeap_eq_drainFCFS k q nodes [],
      drainFCFS_pending]
  · rw [drainHeap_eq_drainFCFS k q nodes []]
    exact drainFCFS_sublist _ _

/-! ### C6 -/

/-- A job that demands more cores than every node's total core capacity,
or more memory than every node's total memory capacity. -/
def oversized (j : Job) (ns : List WorkerNode) : Prop :=
  (∀ n ∈ ns, n.totalCores < j.coresRequired) ∨
  (∀ n ∈ ns, n.totalMemory < j.memoryRequired)

instance (j : Job) (ns : List WorkerNode) : Decidable (oversized j ns) := by
  unfold oversized; infer_instance

theorem allocateJob_oversized_fail {n : WorkerNode} {j : Job} (hinv : nodeInvariant n)
    (h : n.totalCores < j.coresRequired ∨ n.totalMemory < j.memoryRequired) :
    n.allocateJob j = (false, n) := by
  obtain ⟨h1, h2, h3, h4⟩ := hinv
  unfold WorkerNode.allocateJob
  rw [if_neg]
  rintro ⟨hc, hm⟩
  omega

theorem allocateJobToNode_oversized_fail {ns : List WorkerNode} {j : Job}
    (hinv : invariantAll ns) (hover : oversized j ns) :
    allocateJobToNode ns j = (false, ns, j) := by
  induction ns with
  | nil => rfl
  | cons n ns ih =>
    have hn : n.allocateJob j = (false, n) := by
      refine allocateJob_oversized_fail (hinv n (List.mem_cons_self n ns)) ?_
      rcases hover with h | h
      · exact Or.inl (h n (List.mem_cons_self n ns))
      · exact Or.inr (h n (List.mem_cons_self n ns))
    have htail : allocateJobToNode ns j = (false, ns, j) := by
      refine ih (fun y hy => hinv y (List.mem_cons_of_mem n hy)) ?_
      rcases hover with h | h
      · exact Or.inl fun y hy => h y (List.mem_cons_of_mem n hy)
      · exact Or.inr fun y hy => h y (List.mem_cons_of_mem n hy)
    simp only [allocateJobToNode]
    rw [hn, htail]

theorem oversized_of_totals {j : Job} {ns ns2 : List WorkerNode}
    (h : ns2.map nodeTotals = ns.map nodeTotals) (hover : oversized j ns) :
    oversized j ns2 := by
  have key : ∀ P : Int × Int → Prop,
      (∀ n ∈ ns, P (nodeTotals n)) → ∀ n ∈ ns2, P (nodeTotals n) := by
    intro P hP n hn
    have h1 : nodeTotals n ∈ ns2.map nodeTotals := List.mem_map_of_mem nodeTotals hn
    rw [h] at h1
    rcases List.mem_map.mp h1 with ⟨x, hx, he⟩
    have h2 := hP x hx
    rw [he] at h2
    exact h2
  rcases hover with h1 | h1
  · exact Or.inl (key (fun t => t.1 < j.coresRequired) h1)
  · exact Or.inr (key (fun t => t.2 < j.memoryRequired) h1)

theorem drainFCFS_oversized_mem {q : List Job} {nodes : List WorkerNode}
    {pending : List Job} {j : Job}
    (hinv : invariantAll nodes) (hq : jobsNonneg q)
    (hover : oversized j nodes) (hj : j ∈ q) :
    j ∈ (drainFCFS q nodes pending).2 := by
  induction q generalizing nodes pending with
  | nil => cases hj
  | cons job rest ih =>
    simp only [drainFCFS]
    by_cases hjj : job = j
    · subst hjj
      have hfail := allocateJobToNode_oversized_fail hinv hover
      have e1 : (allocateJobToNode nodes job).1 = false := by rw [hfail]
      have e2 : (allocateJobToNode nodes job).2.1 = nodes := by rw [hfail]
      rw [e1, e2, if_neg Bool.false_ne_true, drainFCFS_pending]
      exact List.mem_append_left _ (List.mem_append_right _ (List.mem_singleton.mpr rfl))
    · have hj2 : j ∈ rest := by
        rcases List.mem_cons.mp hj with he | hr
        · exact absurd he.symm hjj
        · exact hr
      exact ih
        (allocateJobToNode_invariant hinv (hq job (List.mem_cons_self job rest)).1
          (hq job (List.mem_cons_self job rest)).2)
        (fun y hy => hq y (List.mem_cons_of_mem job hy))
        (oversized_of_totals (allocateJobToNode_totals nodes job) hover)
        hj2

/-- All queue contents have nonnegative demands (as the spec requires of
jobs) and all nodes satisfy the resource invariant. -/
def GoodState (s : Scheduler) : Prop :=
  invariantAll s.nodes ∧ jobsNonneg s.jobQueueFCFS ∧
  jobsNonneg s.jobQueueSmallest ∧ jobsNonneg s.jobQueueShortest

instance (s : Scheduler) : Decidable (GoodState s) := by
  unfold GoodState; infer_instance

/-- The sequence in which one policy's drain pops its queue: list order
for FCFS, heap pop order for the two priority queues. -/
def drainedOrder : Policy → Scheduler → List Job
  | Policy.fcfs, s => s.jobQueueFCFS
  | Policy.smallest, s => heapDrainOrder smallestKey s.jobQueueSmallest
  | Policy.shortest, s => heapDrainOrder Job.execTime s.jobQueueShortest

theorem drainedOrder_perm (p : Policy) (s : Scheduler) :
    (drainedOrder p s).Perm (queueOf p s) := by
  cases p
  · exact List.Perm.refl _
  · exact heapDrainOrder_perm _ _
  · exact heapDrainOrder_perm _ _

theorem runPolicy_spec (p : Policy) (s : Scheduler) :
    (runPolicy p s).nodes = (drainFCFS (drainedOrder p s) s.nodes []).1 ∧
    (runPolicy p s).pendingJobs =
      s.pendingJobs ++ (drainFCFS (drainedOrder p s) s.nodes []).2 ∧
    queueOf p (runPolicy p s) = [] ∧
    (∀ p2, p2 ≠ p → queueOf p2 (runPolicy p s) = queueOf p2 s) := by
  cases p with
  | fcfs =>
    refine ⟨?_, ?_, rfl, ?_⟩
    · show (drainFCFS s.jobQueueFCFS s.nodes s.pendingJobs).1 = _
      rw [drainFCFS_pending]
      rfl
    · show (drainFCFS s.jobQueueFCFS s.nodes s.pendingJobs).2 = _
      rw [drainFCFS_pending]
      rfl
    · intro p2 hp2
      cases p2
      · exact absurd rfl hp2
      · rfl
      · rfl
  | smallest =>
    refine ⟨?_, ?_, rfl, ?_⟩
    · show (drainHeap smallestKey s.jobQueueSmallest s.nodes s.pendingJobs).1 = _
      rw [drainHeap_eq_drainFCFS, drainFCFS_pending]
      rfl
    · show (drainHeap smallestKey s.jobQueueSmallest s.nodes s.pendingJobs).2 = _
      rw [drainHeap_eq_drainFCFS, drainFCFS_pending]
      rfl
    · intro p2 hp2
      cases p2
      · rfl
      · exact absurd rfl hp2
      · rfl
  | shortest =>
    refine ⟨?_, ?_, rfl, ?_⟩
    · show (drainHeap Job.execTime s.jobQueueShortest s.nodes s.pendingJobs).1 = _
      rw [drainHeap_eq_drainFCFS, drainFCFS_pending]
      rfl
    · show (drainHeap Job.execTime s.jobQueueShortest s.nodes s.pendingJobs).2 = _
      rw [drainHeap_eq_drainFCFS, drainFCFS_pending]
      rfl
    · intro p2 hp2
      cases p2
      · rfl
      · rfl
      · exact absurd rfl hp2

theorem drainedOrder_nonneg {s : Scheduler} (p : Policy) (hg : GoodState s) :
    jobsNonneg (drainedOrder p s) := by
  intro x hx
  have hx2 : x ∈ queueOf p s := (drainedOrder_perm p s).subset hx
  cases p
  · exact hg.2.1 x hx2
  · exact hg.2.2.1 x hx2
  · exact hg.2.2.2 x hx2

theorem runPolicy_good {s : Scheduler} (p : Policy) (hg : GoodState s) :
    GoodState (runPolicy p s) ∧
    (runPolicy p s).nodes.map nodeTotals = s.nodes.map nodeTotals := by
  obtain ⟨hnodes, hpend, hqe, hother⟩ := runPolicy_spec p s
  have hdq := drainedOrder_nonneg p hg
  obtain ⟨hi, h1, h2, h3⟩ := hg
  refine ⟨⟨?_, ?_, ?_, ?_⟩, ?_⟩
  · rw [hnodes]
    exact drainFCFS_invariant hi hdq
  · by_cases hp : p = Policy.fcfs
    · subst hp
      show jobsNonneg (queueOf Policy.fcfs (runPolicy Policy.fcfs s))
      rw [hqe]
      intro x hx
      cases hx
    · have he := hother Policy.fcfs fun he => hp he.symm
      show jobsNonneg (queueOf Policy.fcfs (runPolicy p s))
      rw [he]
      exact h1
  · by_cases hp : p = Policy.smallest
    · subst hp
      show jobsNonneg (queueOf Policy.smallest (runPolicy Policy.smallest s))
      rw [hqe]
      intro x hx
      cases hx
    · have he := hother Policy.smallest fun he => hp he.symm
      show jobsNonneg (queueOf Policy.smallest (runPolicy p s))
      rw [he]
      exact h2
  · by_cases hp : p = Policy.shortest
    · subst hp
      show jobsNonneg (queueOf Policy.shortest (runPolicy Policy.shortest s))
      rw [hqe]
      intro x hx
      cases hx
    · have he := hother Policy.shortest fun he => hp he.symm
      show jobsNonneg (queueOf Policy.shortest (runPolicy p s))
      rw [he]
      exact h3
  · rw [hnodes, drainFCFS_totals]

theorem runPolicy_pending_mono {s : Scheduler} (p : Policy) {j : Job}
    (hj : j ∈ s.pendingJobs) : j ∈ (runPolicy p s).pendingJobs := by
  rw [(runPolicy_spec p s).2.1]
  exact List.mem_append_left _ hj

theorem runPolicy_oversized_mem {s : Scheduler} {p : Policy} {j : Job}
    (hg : GoodState s) (hover : oversized j s.nodes) (hj : j ∈ queueOf p s) :
    j ∈ (runPolicy p s).pendingJobs := by
  rw [(runPolicy_spec p s).2.1]
  refine List.mem_append_right _ ?_
  exact drainFCFS_oversized_mem hg.1 (drainedOrder_nonneg p hg) hover
    ((drainedOrder_perm p s).mem_iff.mpr hj)

theorem runDrains_good {order : List Policy} {s : Scheduler} (hg : GoodState s) :
    GoodState (runDrains order s) ∧
    (runDrains order s).nodes.map nodeTotals = s.nodes.map nodeTotals := by
  induction order generalizing s with
  | nil => exact ⟨hg, rfl⟩
  | cons p rest ih =>
    have h1 := runPolicy_good p hg
    have h2 := ih h1.1
    exact ⟨h2.1, h2.2.trans h1.2⟩

theorem runDrains_pending_mono {order : List Policy} {s : Scheduler} {j : Job}
    (hj : j ∈ s.pendingJobs) : j ∈ (runDrains order s).pendingJobs := by
  induction order generalizing s with
  | nil => exact hj
  | cons p rest ih => exact ih (runPolicy_pending_mono p hj)

theorem runDrains_oversized_mem {order : List Policy} {s : Scheduler} {j : Job}
    (hg : GoodState s) (hover : oversized j s.nodes)
    (hq : ∃ p ∈ order, j ∈ queueOf p s) :
    j ∈ (runDrains order s).pendingJobs := by
  induction order generalizing s with
  | nil =>
    rcases hq with ⟨p, hp, -⟩
    cases hp
  | cons p rest ih =>
    by_cases hjp : j ∈ queueOf p s
    · show j ∈ (runDrains rest (runPolicy p s)).pendingJobs
      exact runDrains_pending_mono (runPolicy_oversized_mem hg hover hjp)
    · rcases hq with ⟨p2, hp2, hjq⟩
      have hp2r : p2 ∈ rest := by
        rcases List.mem_cons.mp hp2 with he | hr
        · subst he
          exact absurd hjq hjp
        · exact hr
      have hp2ne : p2 ≠ p := fun he => hjp (he ▸ hjq)
      refine ih ((runPolicy_good p hg).1)
        (oversized_of_totals (runPolicy_good p hg).2 hover) ⟨p2, hp2r, ?_⟩
      rw [(runPolicy_spec p s).2.2.2 p2 hp2ne]
      exact hjq

/-- C6: a job demanding more cores than every node's total cores, or more
memory than every node's total memory, ends in the pending sequence after
the three drains are invoked in any order, and even the final node pool
still rejects it (it can never be allocated to any node). -/
theorem C6_infeasible_job (s : Scheduler) (j : Job) (order : List Policy)
    (hg : GoodState s) (hover : oversized j s.nodes)
    (hj : j ∈ s.jobQueueFCFS ∨ j ∈ s.jobQueueSmallest ∨ j ∈ s.jobQueueShortest)
    (ho : Policy.fcfs ∈ order ∧ Policy.smallest ∈ order ∧ Policy.shortest ∈ order) :
    j ∈ (runDrains order s).pendingJobs ∧
    (allocateJobToNode (runDrains order s).nodes j).1 = false := by
  have hq : ∃ p ∈ order, j ∈ queueOf p s := by
    rcases hj with h | h | h
    · exact ⟨Policy.fcfs, ho.1, h⟩
    · exact ⟨Policy.smallest, ho.2.1, h⟩
    · exact ⟨Policy.shortest, ho.2.2, h⟩
  refine ⟨runDrains_oversized_mem hg hover hq, ?_⟩
  have hgd := @runDrains_good order s hg
  rw [allocateJobToNode_oversized_fail hgd.1.1 (oversized_of_totals hgd.2 hover)]

/-- A job demanding 100 cores and 100 GB: more than any default node. -/
def bigJob : Job := mkJob 42 0 100 100 1

/-- A one-node scheduler whose FCFS queue holds only `bigJob`. -/
def schedW : Scheduler :=
  { nodes := [mkWorkerNode 0], jobQueueFCFS := [bigJob],
    jobQueueSmallest := [], jobQueueShortest := [], pendingJobs := [] }

/-- C6 witness: draining `schedW` in the program's policy order leaves
`bigJob` pending and still unallocatable. -/
theorem C6_infeasible_job_witness :
    bigJob ∈ (runDrains [Policy.fcfs, Policy.smallest, Policy.shortest] schedW).pendingJobs ∧
    (allocateJobToNode
      (runDrains [Policy.fcfs, Policy.smallest, Policy.shortest] schedW).nodes bigJob).1 =
      false :=
  C6_infeasible_job schedW bigJob [Policy.fcfs, Policy.smallest, Policy.shortest]
    (by decide) (by decide) (by decide) (by decide)

/-! ### C7, C10: the weighted-smallest comparator and 32-bit wrap-around -/

theorem toInt32_eq_of_range {x : Int} (h1 : -(2 ^ 31) ≤ x) (h2 : x < 2 ^ 31) :
    toInt32 x = x := by
  unfold toInt32
  omega

theorem toInt32_congr {x y : Int} (h : x % 2 ^ 32 = y % 2 ^ 32) :
    toInt32 x = toInt32 y := by
  unfold toInt32
  omega

theorem toInt32_emod_self (x : Int) : toInt32 x % 2 ^ 32 = x % 2 ^ 32 := by
  unfold toInt32
  omega

/-- Wrapping between the two multiplications loses nothing modulo `2^32`:
the comparator's key is the full product reduced to 32 bits. -/
theorem smallestKey_eq_toInt32 (j : Job) :
    smallestKey j = toInt32 (trueProduct j) := by
  unfold smallestKey trueProduct
  exact toInt32_congr
    (Int.ModEq.mul_right j.memoryRequired (toInt32_emod_self (j.execTime * j.coresRequired)))

theorem smallestKey_eq_trueProduct {j : Job} (h1 : -(2 ^ 31) ≤ trueProduct j)
    (h2 : trueProduct j < 2 ^ 31) : smallestKey j = trueProduct j :=
  (smallestKey_eq_toInt32 j).trans (toInt32_eq_of_range h1 h2)

/-- A job with exact product 65536 · 1 · 65536 = 2^32, which wraps to 0 in
C++ `int` arithmetic. -/
def overflowJob : Job := mkJob 1 0 65536 1 65536

/-- A job with product 1 · 1 · 1 = 1. -/
def unitJob : Job := mkJob 2 0 1 1 1

/-- C7 counterexample: two jobs with pairwise-distinct exact products
(2^32 and 1) are *not* popped in ascending order of the exact product —
the 2^32 job's key wraps to 0, so it pops first although its exact
product is the larger one. -/
theorem C7_counterexample :
    (([overflowJob, unitJob] : List Job).map trueProduct).Pairwise (· ≠ ·) ∧
    heapDrainOrder smallestKey [overflowJob, unitJob] = [overflowJob, unitJob] ∧
    trueProduct unitJob < trueProduct overflowJob ∧
    ¬ ((List.map trueProduct
        (heapDrainOrder smallestKey [overflowJob, unitJob])).Chain' (· < ·)) := by
  refine ⟨?_, by decide, by decide, ?_⟩
  · norm_num [overflowJob, unitJob, trueProduct, mkJob]
  · rw [show heapDrainOrder smallestKey [overflowJob, unitJob] = [overflowJob, unitJob]
      from by decide]
    norm_num [overflowJob, unitJob, trueProduct, mkJob]

/-- C7 (amended): provided every job's exact product lies within the
32-bit signed integer range (so the comparator's wrapped key equals the
exact product), popping the weighted-smallest queue until empty returns a
permutation of the jobs in strictly ascending order of
`execTime × coresRequired × memoryRequired` whenever those products are
pairwise distinct. -/
theorem C7_smallest_order (l : List Job)
    (hrange : ∀ j ∈ l, -(2 ^ 31) ≤ trueProduct j ∧ trueProduct j < 2 ^ 31)
    (hdist : (l.map trueProduct).Pairwise (· ≠ ·)) :
    (heapDrainOrder smallestKey l).Perm l ∧
    ((heapDrainOrder smallestKey l).map trueProduct).Chain' (· < ·) := by
  have hperm := heapDrainOrder_perm smallestKey l
  refine ⟨hperm, ?_⟩
  have hkey : ∀ j ∈ heapDrainOrder smallestKey l, smallestKey j = trueProduct j := by
    intro j hj
    have hjl := hperm.subset hj
    exact smallestKey_eq_trueProduct (hrange j hjl).1 (hrange j hjl).2
  have hpw2 : (heapDrainOrder smallestKey l).Pairwise
      fun a b => trueProduct a ≤ trueProduct b := by
    refine List.Pairwise.imp_of_mem ?_ (heapDrainOrder_pairwise smallestKey l)
    intro a b ha hb hab
    rw [← hkey a ha, ← hkey b hb]
    exact hab
  have hpw3 : ((heapDrainOrder smallestKey l).map trueProduct).Pairwise (· ≤ ·) :=
    List.pairwise_map.mpr hpw2
  have hdist2 : ((heapDrainOrder smallestKey l).map trueProduct).Pairwise (· ≠ ·) :=
    (List.Perm.pairwise_iff (fun hab => hab.symm) (hperm.map trueProduct)).mpr hdist
  exact ((hpw3.and hdist2).imp fun h => lt_of_le_of_ne h.1 h.2).chain'

/-- C7 amended-claim witness: the spec's own example — jobs with products
100, 10 and 1000 pop as 10, 100, 1000 (ascending, a permutation of the
input). -/
theorem C7_smallest_order_witness :
    (heapDrainOrder smallestKey
        [mkJob 1 0 10 10 1, mkJob 2 0 2 5 1, mkJob 3 0 10 10 10]).Perm
      [mkJob 1 0 10 10 1, mkJob 2 0 2 5 1, mkJob 3 0 10 10 10] ∧
    ((heapDrainOrder smallestKey
        [mkJob 1 0 10 10 1, mkJob 2 0 2 5 1, mkJob 3 0 10 10 10]).map
      trueProduct).Chain' (· < ·) :=
  C7_smallest_order [mkJob 1 0 10 10 1, mkJob 2 0 2 5 1, mkJob 3 0 10 10 10]
    (by decide) (by norm_num [trueProduct, mkJob])

/-- C10: the `SmallestJobFirst` comparator computes its key in wrapping
32-bit signed arithmetic; whenever both jobs' exact products lie within
the 32-bit signed range `[-2^31, 2^31)`, the wrapped keys equal the exact
products and the comparator agrees with comparison of the exact
mathematical products. -/
theorem C10_comparator_agrees (j1 j2 : Job)
    (h1a : -(2 ^ 31) ≤ trueProduct j1) (h1b : trueProduct j1 < 2 ^ 31)
    (h2a : -(2 ^ 31) ≤ trueProduct j2) (h2b : trueProduct j2 < 2 ^ 31) :
    SmallestJobFirst j1 j2 = decide (trueProduct j2 < trueProduct j1) ∧
    smallestKey j1 = trueProduct j1 ∧ smallestKey j2 = trueProduct j2 := by
  have k1 := smallestKey_eq_trueProduct h1a h1b
  have k2 := smallestKey_eq_trueProduct h2a h2b
  refine ⟨?_, k1, k2⟩
  unfold SmallestJobFirst
  rw [k1, k2]

/-- C10 witness at concrete jobs with products 100 and 10. -/
theorem C10_comparator_agrees_witness :
    SmallestJobFirst (mkJob 1 0 10 10 1) (mkJob 2 0 2 5 1) =
      decide (trueProduct (mkJob 2 0 2 5 1) < trueProduct (mkJob 1 0 10 10 1)) ∧
    smallestKey (mkJob 1 0 10 10 1) = trueProduct (mkJob 1 0 10 10 1) ∧
    smallestKey (mkJob 2 0 2 5 1) = trueProduct (mkJob 2 0 2 5 1) :=
  C10_comparator_agrees (mkJob 1 0 10 10 1) (mkJob 2 0 2 5 1)
    (by decide) (by decide) (by decide) (by decide)

/-! ### C8 -/

/-- C8: popping the shortest-duration queue until empty returns a
permutation of the pushed jobs in strictly ascending order of `execTime`
whenever the `execTime`s are pairwise distinct (`execTime` is compared
directly, with no arithmetic that could overflow). -/
theorem C8_shortest_order (l : List Job)
    (hdist : (l.map Job.execTime).Pairwise (· ≠ ·)) :
    (heapDrainOrder Job.execTime l).Perm l ∧
    ((heapDrainOrder Job.execTime l).map Job.execTime).Chain' (· < ·) := by
  have hperm := heapDrainOrder_perm Job.execTime l
  refine ⟨hperm, ?_⟩
  have hpw3 : ((heapDrainOrder Job.execTime l).map Job.execTime).Pairwise (· ≤ ·) :=
    List.pairwise_map.mpr (heapDrainOrder_pairwise Job.execTime l)
  have hdist2 : ((heapDrainOrder Job.execTime l).map Job.execTime).Pairwise (· ≠ ·) :=
    (List.Perm.pairwise_iff (fun hab => hab.symm) (hperm.map Job.execTime)).mpr hdist
  exact ((hpw3.and hdist2).imp fun h => lt_of_le_of_ne h.1 h.2).chain'

/-- C8 witness: the spec's own example — execTimes `[5,2,8]` pop as
`2,5,8`. -/
theorem C8_shortest_order_witness :
    (heapDrainOrder Job.execTime
        [mkJob 1 0 1 1 5, mkJob 2 0 1 1 2, mkJob 3 0 1 1 8]).Perm
      [mkJob 1 0 1 1 5, mkJob 2 0 1 1 2, mkJob 3 0 1 1 8] ∧
    ((heapDrainOrder Job.execTime
        [mkJob 1 0 1 1 5, mkJob 2 0 1 1 2, mkJob 3 0 1 1 8]).map
      Job.execTime).Chain' (· < ·) :=
  C8_shortest_order [mkJob 1 0 1 1 5, mkJob 2 0 1 1 2, mkJob 3 0 1 1 8]
    (by norm_num [mkJob])

/-! ### C9 -/

/-- C9: utilization is the derived quantity `100 × (1 − available/total)`
per resource dimension; under the node invariant (and positive totals) it
lies in `[0, 100]`; allocating a 12-core/32-GB job on a fresh default
24-core/64-GB node yields exactly 50 for both dimensions; a node with no
allocations reports 0 for both. -/
theorem C9_utilization (n : WorkerNode)
    (hinv : nodeInvariant n) (hc : 0 < n.totalCores) (hm : 0 < n.totalMemory) :
    (0 ≤ n.getCpuUtilization ∧ n.getCpuUtilization ≤ 100 ∧
     0 ≤ n.getMemoryUtilization ∧ n.getMemoryUtilization ≤ 100) ∧
    (((mkWorkerNode 0).allocateJob (mkJob 1 1 12 32 5)).2.getCpuUtilization = 50 ∧
     ((mkWorkerNode 0).allocateJob (mkJob 1 1 12 32 5)).2.getMemoryUtilization = 50) ∧
    ((mkWorkerNode 0).getCpuUtilization = 0 ∧
     (mkWorkerNode 0).getMemoryUtilization = 0) := by
  obtain ⟨h1, h2, h3, h4⟩ := hinv
  have hc2 : (0 : ℚ) < n.totalCores := by exact_mod_cast hc
  have hm2 : (0 : ℚ) < n.totalMemory := by exact_mod_cast hm
  have hac0 : (0 : ℚ) ≤ (n.availableCores : ℚ) := by exact_mod_cast h1
  have hac1 : (n.availableCores : ℚ) ≤ (n.totalCores : ℚ) := by exact_mod_cast h2
  have ham0 : (0 : ℚ) ≤ (n.availableMemory : ℚ) := by exact_mod_cast h3
  have ham1 : (n.availableMemory : ℚ) ≤ (n.totalMemory : ℚ) := by exact_mod_cast h4
  refine ⟨⟨?_, ?_, ?_, ?_⟩, ⟨?_, ?_⟩, ⟨?_, ?_⟩⟩
  · have hx : (n.availableCores : ℚ) / n.totalCores ≤ 1 := (div_le_one hc2).mpr hac1
    unfold WorkerNode.getCpuUtilization
    linarith
  · have hx : (0 : ℚ) ≤ (n.availableCores : ℚ) / n.totalCores := div_nonneg hac0 hc2.le
    unfold WorkerNode.getCpuUtilization
    linarith
  · have hx : (n.availableMemory : ℚ) / n.totalMemory ≤ 1 := (div_le_one hm2).mpr ham1
    unfold WorkerNode.getMemoryUtilization
    linarith
  · have hx : (0 : ℚ) ≤ (n.availableMemory : ℚ) / n.totalMemory := div_nonneg ham0 hm2.le
    unfold WorkerNode.getMemoryUtilization
    linarith
  · norm_num [mkWorkerNode, mkJob, WorkerNode.allocateJob, WorkerNode.getCpuUtilization]
  · norm_num [mkWorkerNode, mkJob, WorkerNode.allocateJob, WorkerNode.getMemoryUtilization]
  · norm_num [mkWorkerNode, WorkerNode.getCpuUtilization]
  · norm_num [mkWorkerNode, WorkerNode.getMemoryUtilization]

/-- C9 witness: the fresh default node satisfies the hypotheses. -/
theorem C9_utilization_witness :
    (0 ≤ (mkWorkerNode 0).getCpuUtilization ∧
     (mkWorkerNode 0).getCpuUtilization ≤ 100 ∧
     0 ≤ (mkWorkerNode 0).getMemoryUtilization ∧
     (mkWorkerNode 0).getMemoryUtilization ≤ 100) ∧
    (((mkWorkerNode 0).allocateJob (mkJob 1 1 12 32 5)).2.getCpuUtilization = 50 ∧
     ((mkWorkerNode 0).allocateJob (mkJob 1 1 12 32 5)).2.getMemoryUtilization = 50) ∧
    ((mkWorkerNode 0).getCpuUtilization = 0 ∧
     (mkWorkerNode 0).getMemoryUtilization = 0) :=
  C9_utilization (mkWorkerNode 0) (by decide) (by decide) (by decide)
